import Mathlib

/-!
Shallow embedding of the FireTrack streak-calculation core
(`functions` Cloud Function: `toDateKey`, `toUtc`, `computeCurrentStreak`,
`computeLongestStreak`, and the per-habit body of `calculateStreaks`),
together with theorems settling the spec claims about it.

Modelling conventions:
* A day key (the ISO `yyyy-mm-dd` string produced by
  `toDateKey(date) = date.toISOString().slice(0, 10)`) is represented by its UTC
  day number (days since the Unix epoch, negative before 1970).  The string
  form is in bijection with this integer, and every operation the code
  performs on keys (equality tests and `toUtc` day arithmetic) factors
  through it.
* An instant (`Date` / Firestore `Timestamp`) is its epoch-millisecond
  value, an integer.
* `Math.round((x - y) / DAY_MS)` on exact millisecond values is the exact
  rational quotient rounded half-up (`jsDayDiff` below, with the bridging
  lemma `jsDayDiff_eq_round`).
* The ambient clock read `new Date()` inside `computeCurrentStreak` is
  modelled by an explicit `todayKey` argument holding the day key that the
  read would return; the function body is otherwise a line-by-line
  translation.
-/

namespace FireTrack

/-- Millisecond length of a day, `DAY_MS = 24 * 60 * 60 * 1000` in the source. -/
def DAY_MS : Int := 24 * 60 * 60 * 1000

/-- Source `toDateKey(date)`: the UTC calendar day of an instant, i.e. the
floor of its epoch-millisecond value divided by `DAY_MS`.  (`Int` division
`/` is Euclidean division, which is floor division for the positive
divisor `DAY_MS`.) -/
def toDateKey (ms : Int) : Int := ms / DAY_MS

/-- Source `toUtc(dateKey)`: the UTC-midnight millisecond timestamp of a day
key, `Date.UTC(year, month - 1, day)` in the source. -/
def toUtc (k : Int) : Int := k * DAY_MS

/-- Source expression `Math.round((a - b) / DAY_MS)` on millisecond values
`a`, `b`: the exact rational quotient rounded half-up, computed here in
integer arithmetic as `⌊((a - b) / DAY_MS) + 1/2⌋ = ⌊(2*(a-b) + DAY_MS) / (2*DAY_MS)⌋`. -/
def jsDayDiff (a b : Int) : Int := (2 * (a - b) + DAY_MS) / (2 * DAY_MS)

/-- Loop of source `computeCurrentStreak` (index 1 onwards): state is the
mutable `previousUtc` and `streak`; `diff === 0` continues unchanged,
`diff === 1` increments and advances `previousUtc`, anything else breaks
out and the accumulated `streak` is returned. -/
def computeCurrentStreakGo (previousUtc : Int) (streak : Nat) : List Int → Nat
  | [] => streak
  | k :: rest =>
    let currentUtc := toUtc k
    let diff := jsDayDiff previousUtc currentUtc
    if diff = 0 then computeCurrentStreakGo previousUtc streak rest
    else if diff = 1 then computeCurrentStreakGo currentUtc (streak + 1) rest
    else streak

/-- Source `computeCurrentStreak(dateKeys)`.  `todayKey` is the day key the
source reads from the ambient clock (`toDateKey(new Date())`), passed
explicitly here.  Empty input returns 0; a gap of more than one day from
today to the newest key returns 0; otherwise the loop starts with
`streak = 1` at the newest key. -/
def computeCurrentStreak (todayKey : Int) (dateKeys : List Int) : Nat :=
  match dateKeys with
  | [] => 0
  | first :: rest =>
    let todayUtc := toUtc todayKey
    let firstUtc := toUtc first
    let diffToday := jsDayDiff todayUtc firstUtc
    if diffToday > 1 then 0
    else computeCurrentStreakGo (toUtc first) 1 rest

/-- Loop of source `computeLongestStreak` after the first key has set
`run = 1`, `longest = max longest run`, `previousUtc = toUtc first`:
`diff === 0` skips, `diff === 1` extends the run, anything else resets the
run to 1; `longest` then takes the max with the new run. -/
def computeLongestStreakGo (previousUtc : Int) (run longest : Nat) : List Int → Nat
  | [] => longest
  | k :: rest =>
    let currentUtc := toUtc k
    let diff := jsDayDiff previousUtc currentUtc
    if diff = 0 then computeLongestStreakGo previousUtc run longest rest
    else
      let run2 := if diff = 1 then run + 1 else 1
      computeLongestStreakGo currentUtc run2 (max longest run2) rest

/-- Source `computeLongestStreak(dateKeys)`: 0 on the empty list; otherwise
the loop starts from `longest = 0`, `run = 0`, `previousUtc = null`, whose
first iteration (the `previousUtc === null` branch) sets `run = 1`,
`longest = max 0 1`, `previousUtc = toUtc first` — unfolded here. -/
def computeLongestStreak (dateKeys : List Int) : Nat :=
  match dateKeys with
  | [] => 0
  | first :: rest => computeLongestStreakGo (toUtc first) 1 (max 0 1) rest

/-- Value of the `performedAt` field of an entry document, as the
`instanceof Timestamp` test in `calculateStreaks` sees it: a genuine
`Timestamp` (with its epoch-millisecond instant), some other present value
(malformed data), or absent (`undefined`). -/
inductive TsField where
  | valid (ms : Int)
  | invalid
  | missing
deriving DecidableEq, Repr

/-- An entry document, reduced to the one field `calculateStreaks` reads. -/
structure Entry where
  performedAt : TsField
deriving DecidableEq, Repr

/-- An entry that carries a genuine timestamp. -/
def Entry.hasValidTs (e : Entry) : Bool :=
  match e.performedAt with
  | TsField.valid _ => true
  | _ => false

/-- The key-collection loop of `calculateStreaks`: for each entry document
(newest first), if `performedAt instanceof Timestamp` its day key is pushed
unless it equals the last pushed key (`dateKeys[dateKeys.length - 1] !== key`;
on the empty array the lookup is `undefined` and the push happens). -/
def collectDateKeysGo (acc : List Int) : List Entry → List Int
  | [] => acc
  | e :: rest =>
    match e.performedAt with
    | TsField.valid ms =>
      let key := toDateKey ms
      if acc.getLast? = some key then collectDateKeysGo acc rest
      else collectDateKeysGo (acc ++ [key]) rest
    | _ => collectDateKeysGo acc rest

/-- The `dateKeys` array built by `calculateStreaks` from the entry window. -/
def collectDateKeys (entries : List Entry) : List Int :=
  collectDateKeysGo [] entries

/-- The three derived fields `calculateStreaks` writes back to the habit
document (`updatedAt` aside). -/
structure HabitUpdate where
  currentStreak : Nat
  longestStreak : Int
  lastEntryAt : Option TsField
deriving DecidableEq, Repr

/-- Source `entriesSnapshot.docs[0]?.get("performedAt") ?? null`: the raw
`performedAt` field of the newest document, with `undefined` (no documents,
or field absent) collapsed to `null` (`none`); a present malformed value is
passed through unchanged. -/
def rawLastEntryAt (entries : List Entry) : Option TsField :=
  match entries with
  | [] => none
  | e :: _ =>
    match e.performedAt with
    | TsField.missing => none
    | v => some v

/-- Per-habit body of the source `calculateStreaks` handler: build the
deduplicated day keys, compute both streaks, merge the longest-streak
candidate with the previously stored value by `Math.max`, and take
`lastEntryAt` from the newest document.  `todayKey` is the ambient-clock
day (see `computeCurrentStreak`); `previousLongest` is
`Number(habitDoc.get("longestStreak") ?? 0)`. -/
def calculateHabitStreaks (todayKey : Int) (entries : List Entry)
    (previousLongest : Int) : HabitUpdate :=
  let dateKeys := collectDateKeys entries
  let currentStreak := computeCurrentStreak todayKey dateKeys
  let longestStreakCandidate := computeLongestStreak dateKeys
  let longestStreak := max previousLongest (longestStreakCandidate : Int)
  { currentStreak := currentStreak
    longestStreak := longestStreak
    lastEntryAt := rawLastEntryAt entries }

/-- A list of day keys that is strictly descending (distinct, newest first):
each key is strictly greater than the next.  This is the shape the spec
calls a "distinct-Int sequence sorted newest first". -/
def StrictDesc (ks : List Int) : Prop :=
  List.Chain' (fun a b => b < a) ks

/-- Membership in `StrictDesc` is decidable by scanning adjacent pairs. -/
def strictDescB : List Int → Bool
  | [] => true
  | [_] => true
  | a :: b :: rest => decide (b < a) && strictDescB (b :: rest)

/-- Modelled from the spec: the length of the trailing contiguous run of a
descending day-key sequence — the count of leading keys each exactly one
day after its successor, stopping at the first larger gap. -/
def trailingRunLength : List Int → Nat
  | [] => 0
  | [_] => 1
  | a :: b :: rest => if a - b = 1 then 1 + trailingRunLength (b :: rest) else 1

/-- Modelled from the spec: the maximum contiguous-day run length found
anywhere in the sequence, i.e. the maximum over every suffix of the length
of that suffix's leading contiguous run. -/
def maxRunLengthSpec : List Int → Nat
  | [] => 0
  | k :: rest => max (trailingRunLength (k :: rest)) (maxRunLengthSpec rest)

/-- Modelled from the spec: the instant of the newest entry found in the
scan — the `performedAt` instant of the first entry bearing a valid
timestamp — or absent if none. -/
def specLastEntryAt : List Entry → Option Int
  | [] => none
  | e :: rest =>
    match e.performedAt with
    | TsField.valid ms => some ms
    | _ => specLastEntryAt rest

/-- Proof-side helper: the longest contiguous run reachable when the run
currently has length `r` and ends at key `k`, with `rest` still to scan.
`k - b = 1` extends the run; any other (positive) gap starts a fresh run
of length 1 and remembers the best so far. -/
def bestFrom (r : Nat) (k : Int) : List Int → Nat
  | [] => r
  | b :: rest => if k - b = 1 then bestFrom (r + 1) b rest else max r (bestFrom 1 b rest)

/-- Proof-side helper: the key-collection loop of `calculateStreaks`
specialised to the day keys themselves (every entry valid). -/
def dedupGo (acc : List Int) : List Int → List Int
  | [] => acc
  | k :: rest =>
    if acc.getLast? = some k then dedupGo acc rest else dedupGo (acc ++ [k]) rest

/-- Proof-side helper: structural form of adjacent-duplicate removal after
the key `m` has just been pushed. -/
def dedupFrom (m : Int) : List Int → List Int
  | [] => []
  | k :: rest => if k = m then dedupFrom m rest else k :: dedupFrom k rest

/-- Entry list in which every entry carries a genuine timestamp. -/
def validEntries (ts : List Int) : List Entry :=
  ts.map (fun t => { performedAt := TsField.valid t })

/-- The integer formula in `jsDayDiff` agrees with rounding the exact
rational quotient, which is what `Math.round((a - b) / DAY_MS)` computes on
exactly representable values. -/
theorem jsDayDiff_eq_round (a b : Int) :
    jsDayDiff a b = round (((a - b : Int) : ℚ) / (DAY_MS : ℚ)) := by
  rw [round_eq, jsDayDiff]
  have h : ((a - b : Int) : ℚ) / (DAY_MS : ℚ) + 1 / 2
      = ((2 * (a - b) + DAY_MS : Int) : ℚ) / ((172800000 : ℕ) : ℚ) := by
    push_cast [DAY_MS]
    field_simp
    ring
  rw [h, Rat.floor_intCast_div_natCast]
  norm_num [DAY_MS]

/-- On UTC-midnight values the day difference is exact. -/
theorem jsDayDiff_toUtc (a b : Int) : jsDayDiff (toUtc a) (toUtc b) = a - b := by
  have h : 2 * (toUtc a - toUtc b) + DAY_MS = DAY_MS + (a - b) * (2 * DAY_MS) := by
    simp only [toUtc]
    ring
  rw [jsDayDiff, h, Int.add_mul_ediv_right _ _ (by norm_num [DAY_MS])]
  rw [Int.ediv_eq_zero_of_lt (by norm_num [DAY_MS]) (by norm_num [DAY_MS])]
  ring

theorem strictDescB_eq_true_iff : ∀ ks : List Int, strictDescB ks = true ↔ StrictDesc ks
  | [] => by simp [strictDescB, StrictDesc]
  | [k] => by simp [strictDescB, StrictDesc]
  | a :: b :: rest => by
    have ih := strictDescB_eq_true_iff (b :: rest)
    rw [StrictDesc] at ih
    rw [StrictDesc, List.chain'_cons]
    simp [strictDescB, ih]

/-- The current-streak loop never returns less than its accumulator. -/
theorem computeCurrentStreakGo_ge :
    ∀ (ks : List Int) (p : Int) (s : Nat), s ≤ computeCurrentStreakGo p s ks
  | [], _, _ => le_refl _
  | k :: rest, p, s => by
    simp only [computeCurrentStreakGo]
    split
    · exact computeCurrentStreakGo_ge rest p s
    · split
      · exact le_trans (Nat.le_succ s) (computeCurrentStreakGo_ge rest (toUtc k) (s + 1))
      · exact le_refl _

/-- The longest-streak loop never returns less than its running maximum. -/
theorem computeLongestStreakGo_ge :
    ∀ (ks : List Int) (p : Int) (r L : Nat), L ≤ computeLongestStreakGo p r L ks
  | [], _, _, _ => le_refl _
  | k :: rest, p, r, L => by
    simp only [computeLongestStreakGo]
    split
    · exact computeLongestStreakGo_ge rest p r L
    · exact le_trans (Nat.le_max_left _ _)
        (computeLongestStreakGo_ge rest (toUtc k) _ _)

/-- Stepwise comparison of the two loops: starting from the same
`previousUtc` and a run no larger than the recorded maximum, the
current-streak loop never exceeds the longest-streak loop. -/
theorem computeCurrentStreakGo_le_longestGo :
    ∀ (ks : List Int) (p : Int) (s L : Nat), s ≤ L →
      computeCurrentStreakGo p s ks ≤ computeLongestStreakGo p s L ks
  | [], _, _, _, h => h
  | k :: rest, p, s, L, h => by
    simp only [computeCurrentStreakGo, computeLongestStreakGo]
    split
    · exact computeCurrentStreakGo_le_longestGo rest p s L h
    · rename_i hne
      split
      · exact computeCurrentStreakGo_le_longestGo rest (toUtc k) (s + 1) _
          (Nat.le_max_right _ _)
      · exact le_trans (le_trans h (Nat.le_max_left L 1))
          (computeLongestStreakGo_ge rest (toUtc k) _ _)

/-- The current streak never exceeds the longest-streak candidate, for any
key list and any ambient day. -/
theorem computeCurrentStreak_le_computeLongestStreak (todayKey : Int)
    (ks : List Int) :
    computeCurrentStreak todayKey ks ≤ computeLongestStreak ks := by
  cases ks with
  | nil => exact le_refl 0
  | cons first rest =>
    simp only [computeCurrentStreak, computeLongestStreak]
    split
    · exact Nat.zero_le _
    · exact computeCurrentStreakGo_le_longestGo rest (toUtc first) 1 (max 0 1)
        (Nat.le_max_right 0 1)

/-- Claim C1: for every entry list and every non-negative previously stored
`longestStreak`, one calculation run produces `currentStreak` at most the
persisted (max-merged) `longestStreak`. -/
theorem currentStreak_le_merged_longestStreak (todayKey : Int)
    (entries : List Entry) (prev : Int) (hprev : 0 ≤ prev) :
    ((calculateHabitStreaks todayKey entries prev).currentStreak : Int)
      ≤ (calculateHabitStreaks todayKey entries prev).longestStreak := by
  unfold calculateHabitStreaks
  simp only
  calc ((computeCurrentStreak todayKey (collectDateKeys entries) : Nat) : Int)
      ≤ ((computeLongestStreak (collectDateKeys entries) : Nat) : Int) := by
        exact_mod_cast computeCurrentStreak_le_computeLongestStreak _ _
    _ ≤ max prev (computeLongestStreak (collectDateKeys entries) : Int) :=
        le_max_right _ _

theorem currentStreak_le_merged_longestStreak_witness :
    (0 : Int) ≤ 2 ∧
      ((calculateHabitStreaks 100 (validEntries [100 * DAY_MS + 7]) 2).currentStreak : Int)
        ≤ (calculateHabitStreaks 100 (validEntries [100 * DAY_MS + 7]) 2).longestStreak :=
  ⟨by norm_num,
    currentStreak_le_merged_longestStreak 100 (validEntries [100 * DAY_MS + 7]) 2
      (by norm_num)⟩

/-- Claim C2: the persisted `longestStreak` is exactly the max-merge of the
previously stored value with the newly computed candidate, and in
particular never smaller than the previously stored value. -/
theorem merged_longestStreak_eq_max (todayKey : Int) (entries : List Entry)
    (prev : Int) (hprev : 0 ≤ prev) :
    (calculateHabitStreaks todayKey entries prev).longestStreak
        = max prev (computeLongestStreak (collectDateKeys entries) : Int)
      ∧ prev ≤ (calculateHabitStreaks todayKey entries prev).longestStreak := by
  refine ⟨rfl, ?_⟩
  exact le_max_left _ _

theorem merged_longestStreak_eq_max_witness :
    (0 : Int) ≤ 5 ∧
      ((calculateHabitStreaks 100 (validEntries [100 * DAY_MS]) 5).longestStreak
          = max 5 (computeLongestStreak (collectDateKeys (validEntries [100 * DAY_MS])) : Int)
        ∧ (5 : Int) ≤ (calculateHabitStreaks 100 (validEntries [100 * DAY_MS]) 5).longestStreak) :=
  ⟨by norm_num, merged_longestStreak_eq_max 100 (validEntries [100 * DAY_MS]) 5 (by norm_num)⟩

/-- The current-streak loop is affine in its accumulator. -/
theorem computeCurrentStreakGo_add :
    ∀ (ks : List Int) (p : Int) (s n : Nat),
      computeCurrentStreakGo p (s + n) ks = computeCurrentStreakGo p s ks + n
  | [], _, _, _ => rfl
  | k :: rest, p, s, n => by
    simp only [computeCurrentStreakGo]
    split
    · exact computeCurrentStreakGo_add rest p s n
    · split
      · rw [show s + n + 1 = (s + 1) + n by omega]
        exact computeCurrentStreakGo_add rest (toUtc k) (s + 1) n
      · rfl

/-- On a strictly descending key list the current-streak loop counts
exactly the trailing contiguous run. -/
theorem computeCurrentStreakGo_trailing :
    ∀ (rest : List Int) (k : Int) (s : Nat), StrictDesc (k :: rest) →
      computeCurrentStreakGo (toUtc k) s rest + 1 = s + trailingRunLength (k :: rest)
  | [], k, s, _ => by
    simp [computeCurrentStreakGo, trailingRunLength]
  | b :: t, k, s, h => by
    have hlt : b < k := (List.chain'_cons.mp h).1
    have h' : StrictDesc (b :: t) := (List.chain'_cons.mp h).2
    simp only [computeCurrentStreakGo, trailingRunLength, jsDayDiff_toUtc]
    by_cases h1 : k - b = 1
    · rw [if_neg (by omega), if_pos h1, if_pos h1]
      have ih := computeCurrentStreakGo_trailing t b (s + 1) h'
      omega
    · rw [if_neg (by omega), if_neg h1, if_neg h1]

/-- Claim C3: on a non-empty strictly descending key list whose newest key
is at most one whole day before today, the current streak is exactly the
length of the trailing contiguous run. -/
theorem currentStreak_eq_trailingRun (todayKey k : Int) (rest : List Int)
    (h : StrictDesc (k :: rest)) (hgap : todayKey - k ≤ 1) :
    computeCurrentStreak todayKey (k :: rest) = trailingRunLength (k :: rest) := by
  simp only [computeCurrentStreak, jsDayDiff_toUtc]
  rw [if_neg (by omega)]
  have := computeCurrentStreakGo_trailing rest k 1 h
  omega

theorem currentStreak_eq_trailingRun_witness :
    StrictDesc [100, 99, 95, 94, 93] ∧ (100 : Int) - 100 ≤ 1 ∧
      computeCurrentStreak 100 [100, 99, 95, 94, 93]
        = trailingRunLength [100, 99, 95, 94, 93] :=
  ⟨(strictDescB_eq_true_iff _).mp (by decide), by norm_num,
    currentStreak_eq_trailingRun 100 100 [99, 95, 94, 93]
      ((strictDescB_eq_true_iff _).mp (by decide)) (by norm_num)⟩

/-- Claim C5: the broken-streak check zeroes the current streak exactly when
the whole-day gap from today to the newest key exceeds 1; a gap of 0 or 1
starts the streak at 1; and each later step requires a gap of exactly 1 —
a contiguous next key adds 1 and shifts the reference day, any other gap on
a strictly descending list freezes the count at 1. -/
theorem currentStreak_gap_policy :
    (∀ (todayKey k : Int) (rest : List Int), 1 < todayKey - k →
        computeCurrentStreak todayKey (k :: rest) = 0)
      ∧ (∀ (todayKey k : Int) (rest : List Int), todayKey - k ≤ 1 →
        1 ≤ computeCurrentStreak todayKey (k :: rest))
      ∧ (∀ (todayKey k b : Int) (rest : List Int), todayKey - k ≤ 1 →
        k - b = 1 →
        computeCurrentStreak todayKey (k :: b :: rest)
          = 1 + computeCurrentStreak k (b :: rest))
      ∧ (∀ (todayKey k b : Int) (rest : List Int),
        StrictDesc (k :: b :: rest) → todayKey - k ≤ 1 → k - b ≠ 1 →
        computeCurrentStreak todayKey (k :: b :: rest) = 1) := by
  refine ⟨?_, ?_, ?_, ?_⟩
  · intro todayKey k rest hgap
    simp only [computeCurrentStreak, jsDayDiff_toUtc]
    rw [if_pos (by omega)]
  · intro todayKey k rest hgap
    simp only [computeCurrentStreak, jsDayDiff_toUtc]
    rw [if_neg (by omega)]
    exact computeCurrentStreakGo_ge rest (toUtc k) 1
  · intro todayKey k b rest hgap h1
    simp only [computeCurrentStreak, computeCurrentStreakGo, jsDayDiff_toUtc]
    rw [if_neg (by omega), if_neg (by omega), if_pos h1, if_neg (by omega)]
    have := computeCurrentStreakGo_add rest (toUtc b) 1 1
    omega
  · intro todayKey k b rest h hgap h1
    have hlt : b < k := (List.chain'_cons.mp h).1
    simp only [computeCurrentStreak, computeCurrentStreakGo, jsDayDiff_toUtc]
    rw [if_neg (by omega), if_neg (by omega), if_neg h1]

theorem currentStreak_gap_policy_witness :
    computeCurrentStreak 100 [98] = 0
      ∧ 1 ≤ computeCurrentStreak 100 [99]
      ∧ computeCurrentStreak 100 [100, 99, 95]
          = 1 + computeCurrentStreak 100 [99, 95]
      ∧ computeCurrentStreak 100 [100, 98, 97] = 1 :=
  ⟨currentStreak_gap_policy.1 100 98 [] (by norm_num),
    currentStreak_gap_policy.2.1 100 99 [] (by norm_num),
    currentStreak_gap_policy.2.2.1 100 100 99 [95] (by norm_num) (by norm_num),
    currentStreak_gap_policy.2.2.2 100 100 98 [97]
      ((strictDescB_eq_true_iff _).mp (by decide)) (by norm_num) (by norm_num)⟩

/-- Claim C10: a newest key on or after today (difference zero or negative)
is not treated as a broken streak, because the check rejects only
differences strictly greater than 1; the current streak is then at least 1. -/
theorem currentStreak_pos_of_future_newest (todayKey k : Int)
    (rest : List Int) (hgap : todayKey - k ≤ 0) :
    1 ≤ computeCurrentStreak todayKey (k :: rest) := by
  simp only [computeCurrentStreak, jsDayDiff_toUtc]
  rw [if_neg (by omega)]
  exact computeCurrentStreakGo_ge rest (toUtc k) 1

theorem currentStreak_pos_of_future_newest_witness :
    (100 : Int) - 105 ≤ 0 ∧ 1 ≤ computeCurrentStreak 100 [105] :=
  ⟨by norm_num, currentStreak_pos_of_future_newest 100 105 [] (by norm_num)⟩

/-- A non-empty list has a trailing run of length at least 1. -/
theorem trailingRunLength_pos : ∀ (l : List Int), l ≠ [] → 1 ≤ trailingRunLength l
  | [], h => absurd rfl h
  | [_], _ => le_refl 1
  | a :: b :: rest, _ => by
    simp only [trailingRunLength]
    split
    · omega
    · omega

/-- The trailing run is one of the runs measured by `maxRunLengthSpec`. -/
theorem trailingRunLength_le_maxRun :
    ∀ l : List Int, trailingRunLength l ≤ maxRunLengthSpec l
  | [] => le_refl 0
  | k :: rest => by
    simp only [maxRunLengthSpec]
    exact Nat.le_max_left _ _

theorem maxRunLengthSpec_pos (l : List Int) (h : l ≠ []) : 1 ≤ maxRunLengthSpec l :=
  le_trans (trailingRunLength_pos l h) (trailingRunLength_le_maxRun l)

/-- `bestFrom` never forgets the run it starts from. -/
theorem bestFrom_ge : ∀ (l : List Int) (r : Nat) (k : Int), r ≤ bestFrom r k l
  | [], _, _ => le_refl _
  | b :: rest, r, k => by
    simp only [bestFrom]
    split
    · exact le_trans (Nat.le_succ r) (bestFrom_ge rest (r + 1) b)
    · exact Nat.le_max_left _ _

/-- On a strictly descending list the longest-streak loop computes `bestFrom`
capped below by the recorded maximum. -/
theorem computeLongestStreakGo_eq_bestFrom :
    ∀ (rest : List Int) (k : Int) (r L : Nat), StrictDesc (k :: rest) → r ≤ L →
      computeLongestStreakGo (toUtc k) r L rest = max L (bestFrom r k rest)
  | [], k, r, L, _, hrL => by
    simp only [computeLongestStreakGo, bestFrom]
    omega
  | b :: t, k, r, L, h, hrL => by
    have hlt : b < k := (List.chain'_cons.mp h).1
    have h' : StrictDesc (b :: t) := (List.chain'_cons.mp h).2
    simp only [computeLongestStreakGo, bestFrom, jsDayDiff_toUtc]
    by_cases h1 : k - b = 1
    · rw [if_neg (show ¬(k - b = 0) by omega), if_pos h1, if_pos h1,
        computeLongestStreakGo_eq_bestFrom t b (r + 1) (max L (r + 1)) h'
          (Nat.le_max_right _ _)]
      have := bestFrom_ge t (r + 1) b
      omega
    · rw [if_neg (show ¬(k - b = 0) by omega), if_neg h1, if_neg h1,
        computeLongestStreakGo_eq_bestFrom t b 1 (max L 1) h' (Nat.le_max_right _ _)]
      have := bestFrom_ge t 1 b
      omega

/-- Closed form of `bestFrom` on a strictly descending list: it either
extends the incoming run through the leading contiguous block or matches
the best run found in the whole list. -/
theorem bestFrom_closed :
    ∀ (rest : List Int) (k : Int) (r : Nat), StrictDesc (k :: rest) → 1 ≤ r →
      bestFrom r k rest + 1
        = max (r + trailingRunLength (k :: rest)) (maxRunLengthSpec (k :: rest) + 1)
  | [], k, r, _, hr => by
    simp only [bestFrom, trailingRunLength, maxRunLengthSpec]
    omega
  | b :: t, k, r, h, hr => by
    have hlt : b < k := (List.chain'_cons.mp h).1
    have h' : StrictDesc (b :: t) := (List.chain'_cons.mp h).2
    have htpos : 1 ≤ trailingRunLength (b :: t) := trailingRunLength_pos _ (by simp)
    have htle : trailingRunLength (b :: t) ≤ maxRunLengthSpec (b :: t) :=
      trailingRunLength_le_maxRun _
    simp only [bestFrom]
    by_cases h1 : k - b = 1
    · rw [if_pos h1]
      have ih := bestFrom_closed t b (r + 1) h' (by omega)
      have hT : trailingRunLength (k :: b :: t) = 1 + trailingRunLength (b :: t) := by
        simp only [trailingRunLength, if_pos h1]
      have hM : maxRunLengthSpec (k :: b :: t)
          = max (trailingRunLength (k :: b :: t)) (maxRunLengthSpec (b :: t)) := rfl
      rw [hM, hT]
      omega
    · rw [if_neg h1]
      have ih := bestFrom_closed t b 1 h' (le_refl 1)
      have hT : trailingRunLength (k :: b :: t) = 1 := by
        simp only [trailingRunLength, if_neg h1]
      have hM : maxRunLengthSpec (k :: b :: t)
          = max (trailingRunLength (k :: b :: t)) (maxRunLengthSpec (b :: t)) := rfl
      rw [hM, hT]
      omega

/-- Claim C4: on every strictly descending key list the longest-streak
candidate equals the maximum contiguous-day run length found anywhere in
the sequence, independent of today; on the empty sequence the candidate and
the current streak are both 0. -/
theorem longestStreak_eq_maxRun :
    (∀ ks : List Int, StrictDesc ks → computeLongestStreak ks = maxRunLengthSpec ks)
      ∧ computeLongestStreak [] = 0
      ∧ (∀ todayKey : Int, computeCurrentStreak todayKey [] = 0) := by
  refine ⟨?_, rfl, fun _ => rfl⟩
  intro ks h
  cases ks with
  | nil => rfl
  | cons k rest =>
    simp only [computeLongestStreak]
    rw [computeLongestStreakGo_eq_bestFrom rest k 1 (max 0 1) h (by omega)]
    have hb := bestFrom_closed rest k 1 h (le_refl 1)
    have h1 := trailingRunLength_le_maxRun (k :: rest)
    have h2 : 1 ≤ maxRunLengthSpec (k :: rest) := maxRunLengthSpec_pos _ (by simp)
    omega

theorem longestStreak_eq_maxRun_witness :
    StrictDesc [100, 99, 95, 94, 93] ∧
      computeLongestStreak [100, 99, 95, 94, 93] = maxRunLengthSpec [100, 99, 95, 94, 93] :=
  ⟨(strictDescB_eq_true_iff _).mp (by decide),
    longestStreak_eq_maxRun.1 [100, 99, 95, 94, 93]
      ((strictDescB_eq_true_iff _).mp (by decide))⟩

/-- Entries without a genuine timestamp leave the key-collection state
untouched, so the collected keys are those of the valid sublist. -/
theorem collectDateKeysGo_filter :
    ∀ (entries : List Entry) (acc : List Int),
      collectDateKeysGo acc entries = collectDateKeysGo acc (entries.filter Entry.hasValidTs)
  | [], _ => rfl
  | e :: rest, acc => by
    obtain ⟨pa⟩ := e
    cases pa with
    | valid ms =>
      simp only [List.filter_cons, Entry.hasValidTs, if_pos rfl, collectDateKeysGo]
      split
      · exact collectDateKeysGo_filter rest acc
      · exact collectDateKeysGo_filter rest (acc ++ [toDateKey ms])
    | invalid =>
      simp only [List.filter_cons, Entry.hasValidTs, collectDateKeysGo]
      exact collectDateKeysGo_filter rest acc
    | missing =>
      simp only [List.filter_cons, Entry.hasValidTs, collectDateKeysGo]
      exact collectDateKeysGo_filter rest acc

/-- Claim C8: entries with malformed or missing timestamps are skipped, so
both streak outputs of one run equal those computed from the sublist of
entries bearing valid timestamps; the calculation is total, and the empty
list yields streak 0, the merged prior value, and no `lastEntryAt`. -/
theorem calculation_skips_invalid_entries :
    (∀ (todayKey : Int) (entries : List Entry) (prev : Int),
        (calculateHabitStreaks todayKey entries prev).currentStreak
            = (calculateHabitStreaks todayKey (entries.filter Entry.hasValidTs) prev).currentStreak
          ∧ (calculateHabitStreaks todayKey entries prev).longestStreak
            = (calculateHabitStreaks todayKey (entries.filter Entry.hasValidTs) prev).longestStreak)
      ∧ (∀ todayKey prev : Int, calculateHabitStreaks todayKey [] prev
          = { currentStreak := 0, longestStreak := max prev 0, lastEntryAt := none }) := by
  constructor
  · intro t entries prev
    have hk : collectDateKeys entries = collectDateKeys (entries.filter Entry.hasValidTs) :=
      collectDateKeysGo_filter entries []
    constructor
    · simp only [calculateHabitStreaks, collectDateKeys] at hk ⊢
      rw [hk]
    · simp only [calculateHabitStreaks, collectDateKeys] at hk ⊢
      rw [hk]
  · intro t prev
    rfl

/-- Counterexample to claim C6: the source `computeCurrentStreak` reads
`new Date()` from the ambient clock (modelled as the explicit `todayKey`
state), so two runs on the same entry list and the same prior
`longestStreak` at different clock instants produce different outputs. -/
theorem ambient_clock_dependence_counterexample :
    calculateHabitStreaks 0 (validEntries [0]) 0
      ≠ calculateHabitStreaks 5 (validEntries [0]) 0 := by
  decide

/-- Amended claim C6: with the ambient clock instant made an explicit input,
the calculation is a pure deterministic function: runs agreeing on the
entry list, the clock day, and the prior `longestStreak` agree on all
outputs. -/
theorem calculation_deterministic (entries entries' : List Entry)
    (todayKey todayKey' prev prev' : Int) (he : entries = entries')
    (ht : todayKey = todayKey') (hp : prev = prev') :
    calculateHabitStreaks todayKey entries prev
      = calculateHabitStreaks todayKey' entries' prev' := by
  rw [he, ht, hp]

theorem calculation_deterministic_witness :
    calculateHabitStreaks 0 (validEntries [0]) 0
      = calculateHabitStreaks 0 (validEntries [0]) 0 :=
  calculation_deterministic (validEntries [0]) (validEntries [0]) 0 0 0 0 rfl rfl rfl

/-- Counterexample to claim C7: with a newest document whose `performedAt`
is missing ahead of a valid entry at instant 0, the code stores `null`
for `lastEntryAt` while the instant of the newest entry found in the scan
is 0. -/
theorem lastEntryAt_counterexample :
    (calculateHabitStreaks 0
        [{ performedAt := TsField.missing }, { performedAt := TsField.valid 0 }] 0).lastEntryAt
      ≠ (specLastEntryAt
          [{ performedAt := TsField.missing }, { performedAt := TsField.valid 0 }]).map
            TsField.valid := by
  decide

/-- Amended claim C7: `lastEntryAt` is the raw `performedAt` field of the
first (newest) document in the window: the instant of the newest entry
whenever that entry bears a valid timestamp, and absent when the list is
empty or the newest document's timestamp field is missing. -/
theorem lastEntryAt_raw_newest :
    (∀ (todayKey prev ms : Int) (rest : List Entry),
        (calculateHabitStreaks todayKey
            ({ performedAt := TsField.valid ms } :: rest) prev).lastEntryAt
          = some (TsField.valid ms))
      ∧ (∀ (todayKey prev : Int) (rest : List Entry),
        (calculateHabitStreaks todayKey
            ({ performedAt := TsField.missing } :: rest) prev).lastEntryAt = none)
      ∧ (∀ todayKey prev : Int,
        (calculateHabitStreaks todayKey [] prev).lastEntryAt = none) :=
  ⟨fun _ _ _ _ => rfl, fun _ _ _ => rfl, fun _ _ => rfl⟩

/-- On all-valid entries the key-collection loop is the adjacent-dedup loop
on the mapped day keys. -/
theorem collectDateKeysGo_validEntries :
    ∀ (ts : List Int) (acc : List Int),
      collectDateKeysGo acc (validEntries ts) = dedupGo acc (ts.map toDateKey)
  | [], _ => rfl
  | t :: ts, acc => by
    simp only [validEntries, List.map_cons, collectDateKeysGo, dedupGo]
    split
    · exact collectDateKeysGo_validEntries ts acc
    · exact collectDateKeysGo_validEntries ts (acc ++ [toDateKey t])

/-- The dedup loop with a non-empty accumulator is `dedupFrom` after the
last pushed key. -/
theorem dedupGo_concat :
    ∀ (ks acc : List Int) (m : Int), dedupGo (acc ++ [m]) ks = acc ++ m :: dedupFrom m ks
  | [], acc, m => by simp [dedupGo, dedupFrom]
  | k :: rest, acc, m => by
    simp only [dedupGo, dedupFrom, List.getLast?_concat]
    by_cases hk : k = m
    · rw [if_pos (by rw [hk]), if_pos hk]
      exact dedupGo_concat rest acc m
    · rw [if_neg (by simp [Ne.symm hk]), if_neg hk]
      have := dedupGo_concat rest (acc ++ [m]) k
      simpa using this

theorem dedupGo_nil (k : Int) (ks : List Int) :
    dedupGo [] (k :: ks) = k :: dedupFrom k ks := by
  simp only [dedupGo, List.getLast?]
  rw [if_neg (by simp)]
  simpa using dedupGo_concat ks [] k

/-- Inserting a key `d` that already occurs in a descending key list, at a
position keeping the list descending, does not change the dedup result. -/
theorem dedupFrom_insert :
    ∀ (P Q : List Int) (d m : Int),
      List.Pairwise (fun a b => b ≤ a) (m :: (P ++ Q)) →
      d ≤ m → (∀ x ∈ P, d ≤ x) → (∀ y ∈ Q, y ≤ d) →
      (m = d ∨ d ∈ P ∨ d ∈ Q) →
      dedupFrom m (P ++ d :: Q) = dedupFrom m (P ++ Q)
  | [], Q, d, m, hpw, hdm, _, hQ, hmem => by
    simp only [List.nil_append] at hpw ⊢
    by_cases hdmeq : d = m
    · simp only [dedupFrom, if_pos hdmeq]
    · have hd : d ∈ Q := by
        rcases hmem with h | h | h
        · exact absurd h.symm hdmeq
        · exact absurd h (List.not_mem_nil d)
        · exact h
      obtain ⟨q, Q', rfl⟩ : ∃ q Q', Q = q :: Q' := by
        cases Q with
        | nil => exact absurd hd (List.not_mem_nil d)
        | cons q Q' => exact ⟨q, Q', rfl⟩
      have hq : q = d := by
        have h1 : q ≤ d := hQ q (List.mem_cons_self q Q')
        have hpw' : List.Pairwise (fun a b => b ≤ a) (q :: Q') :=
          (List.pairwise_cons.mp hpw).2
        rcases List.mem_cons.mp hd with h | h
        · exact h.symm
        · exact le_antisymm h1 ((List.pairwise_cons.mp hpw').1 d h)
      subst hq
      simp [dedupFrom, hdmeq]
  | p :: P', Q, d, m, hpw, hdm, hP, hQ, hmem => by
    have hdp : d ≤ p := hP p (List.mem_cons_self p P')
    have hpm : p ≤ m := by
      have := (List.pairwise_cons.mp hpw).1
      exact this p (by simp)
    have hpw' : List.Pairwise (fun a b => b ≤ a) (p :: (P' ++ Q)) :=
      (List.pairwise_cons.mp hpw).2
    simp only [List.cons_append, dedupFrom]
    by_cases hpmeq : p = m
    · rw [if_pos hpmeq, if_pos hpmeq]
      subst hpmeq
      exact dedupFrom_insert P' Q d p hpw' hdm (fun x hx => hP x (by simp [hx])) hQ
        (by
          rcases hmem with h | h | h
          · exact Or.inl h
          · rcases List.mem_cons.mp h with h' | h'
            · exact Or.inl h'.symm
            · exact Or.inr (Or.inl h')
          · exact Or.inr (Or.inr h))
    · rw [if_neg hpmeq, if_neg hpmeq]
      have hrec := dedupFrom_insert P' Q d p hpw' hdp
        (fun x hx => hP x (by simp [hx])) hQ
        (by
          rcases hmem with h | h | h
          · exact absurd (le_antisymm hpm (h ▸ hdp)) hpmeq
          · rcases List.mem_cons.mp h with h' | h'
            · exact Or.inl h'.symm
            · exact Or.inr (Or.inl h')
          · exact Or.inr (Or.inr h))
      exact congrArg (List.cons p) hrec

/-- Day keys inherit descending order from instants. -/
theorem toDateKey_mono {a b : Int} (h : a ≤ b) : toDateKey a ≤ toDateKey b :=
  Int.ediv_le_ediv (by norm_num [DAY_MS]) h

/-- Inserting an entry instant `u` into a descending entry list at a
position keeping it sorted, when some other entry already lies on the same
calendar day, leaves the collected key list unchanged. -/
theorem collectDateKeys_insert (pre post : List Int) (u : Int)
    (hs : List.Chain' (fun a b => b ≤ a) (pre ++ u :: post))
    (hd : toDateKey u ∈ (pre ++ post).map toDateKey) :
    collectDateKeys (validEntries (pre ++ u :: post))
      = collectDateKeys (validEntries (pre ++ post)) := by
  have h1 := collectDateKeysGo_validEntries (pre ++ u :: post) []
  have h2 := collectDateKeysGo_validEntries (pre ++ post) []
  simp only [collectDateKeys] at h1 h2 ⊢
  rw [h1, h2]
  have hday : List.Chain' (fun a b : Int => b ≤ a) ((pre ++ u :: post).map toDateKey) :=
    (List.chain'_map toDateKey).mpr (List.Chain'.imp (fun a b hab => toDateKey_mono hab) hs)
  have hpwday : List.Pairwise (fun a b : Int => b ≤ a) ((pre ++ u :: post).map toDateKey) :=
    List.chain'_iff_pairwise.mp hday
  cases pre with
  | nil =>
    simp only [List.nil_append, List.map_cons] at hpwday hd ⊢
    have hQle : ∀ y ∈ post.map toDateKey, y ≤ toDateKey u :=
      (List.pairwise_cons.mp hpwday).1
    obtain ⟨q, Q', hq⟩ : ∃ q Q', post.map toDateKey = q :: Q' := by
      cases hpost : post.map toDateKey with
      | nil => rw [hpost] at hd; exact absurd hd (List.not_mem_nil _)
      | cons q Q' => exact ⟨q, Q', rfl⟩
    rw [hq] at hd hQle ⊢
    have hqd : q = toDateKey u := by
      have h1 : q ≤ toDateKey u := hQle q (List.mem_cons_self q Q')
      have hpw' : List.Pairwise (fun a b : Int => b ≤ a) (q :: Q') := by
        rw [hq] at hpwday
        exact (List.pairwise_cons.mp hpwday).2
      rcases List.mem_cons.mp hd with h | h
      · exact h.symm
      · exact le_antisymm h1 ((List.pairwise_cons.mp hpw').1 _ h)
    subst hqd
    rw [dedupGo_nil, dedupGo_nil]
    simp [dedupFrom]
  | cons p pre' =>
    simp only [List.cons_append, List.map_cons, List.map_append] at hpwday hd ⊢
    have hpwtail : List.Pairwise (fun a b : Int => b ≤ a)
        (pre'.map toDateKey ++ toDateKey u :: post.map toDateKey) :=
      (List.pairwise_cons.mp hpwday).2
    have happ := List.pairwise_append.mp hpwtail
    have hP : ∀ x ∈ pre'.map toDateKey, toDateKey u ≤ x := by
      intro x hx
      exact happ.2.2 x hx (toDateKey u) (List.mem_cons_self _ _)
    have hQ : ∀ y ∈ post.map toDateKey, y ≤ toDateKey u :=
      (List.pairwise_cons.mp happ.2.1).1
    have hdp : toDateKey u ≤ toDateKey p := by
      refine (List.pairwise_cons.mp hpwday).1 (toDateKey u) ?_
      exact List.mem_append_right _ (List.mem_cons_self _ _)
    have hpwm : List.Pairwise (fun a b : Int => b ≤ a)
        (toDateKey p :: (pre'.map toDateKey ++ post.map toDateKey)) := by
      refine hpwday.sublist ?_
      refine List.Sublist.cons₂ _ ?_
      exact (List.sublist_cons_self _ _).append_left _
    have hmem : toDateKey p = toDateKey u ∨ toDateKey u ∈ pre'.map toDateKey
        ∨ toDateKey u ∈ post.map toDateKey := by
      rcases List.mem_cons.mp hd with h' | h'
      · exact Or.inl h'.symm
      · rcases List.mem_append.mp h' with h | h
        · exact Or.inr (Or.inl h)
        · exact Or.inr (Or.inr h)
    rw [dedupGo_nil, dedupGo_nil]
    exact congrArg (List.cons (toDateKey p))
      (dedupFrom_insert (pre'.map toDateKey) (post.map toDateKey)
        (toDateKey u) (toDateKey p) hpwm hdp hP hQ hmem)

/-- Claim C9: same-day entries collapse to one day key, so inserting one
more entry on an already-present calendar day into a descending-sorted
entry list changes neither the current streak nor the longest-streak
candidate; two entries today at different hours behave like one entry. -/
theorem sameDay_insert_invariant (pre post : List Int) (u todayKey prev : Int)
    (hs : List.Chain' (fun a b => b ≤ a) (pre ++ u :: post))
    (hd : toDateKey u ∈ (pre ++ post).map toDateKey) :
    (calculateHabitStreaks todayKey (validEntries (pre ++ u :: post)) prev).currentStreak
        = (calculateHabitStreaks todayKey (validEntries (pre ++ post)) prev).currentStreak
      ∧ computeLongestStreak (collectDateKeys (validEntries (pre ++ u :: post)))
        = computeLongestStreak (collectDateKeys (validEntries (pre ++ post))) := by
  have hk := collectDateKeys_insert pre post u hs hd
  constructor
  · simp only [calculateHabitStreaks]
    rw [hk]
  · rw [hk]

theorem sameDay_insert_invariant_witness :
    List.Chain' (fun a b : Int => b ≤ a) ([] ++ 18000000 :: [7200000])
      ∧ toDateKey 18000000 ∈ ([] ++ [7200000]).map toDateKey
      ∧ (calculateHabitStreaks 0 (validEntries ([] ++ 18000000 :: [7200000])) 0).currentStreak
          = (calculateHabitStreaks 0 (validEntries ([] ++ [7200000])) 0).currentStreak
      ∧ computeLongestStreak (collectDateKeys (validEntries ([] ++ 18000000 :: [7200000])))
          = computeLongestStreak (collectDateKeys (validEntries ([] ++ [7200000]))) := by
  refine ⟨List.chain'_pair.mpr (by norm_num), by decide, ?_⟩
  exact sameDay_insert_invariant [] [7200000] 18000000 0 0
    (List.chain'_pair.mpr (by norm_num)) (by decide)

end FireTrack

